import Mathlib

/-!
Verification of the transaction reliability layer of go-synapse.

Shallow embedding of:
  - the nonce manager          (pkg/txutil/nonce.go)
  - the retry loop             (pkg/txutil/retry.go)
  - the backoff policy         (pkg/txutil/retry.go)
  - the receipt waiter         (pkg/txutil, WaitForReceiptWithConfig)
  - the gas-buffer utility     (pkg/txutil/gas.go)
  - the orchestrator           (pdp/manager.go, NewManagerWithConfig, CreateProofSet)

Go uint64 counters are modelled as Nat: every trace considered here keeps the
nonce counter far below 2^64, where uint64 arithmetic and Nat arithmetic agree.
Network interactions are modelled by explicit oracle values supplied to each
operation (the result the RPC collaborator would return).
-/

namespace Synapse

/-! ## Nonce manager state (pkg/txutil/nonce.go)

The Go struct holds `nonce *uint64` (nil until first fetched),
`pendingTxs map[uint64]bool` (used as a set) and `reclaimable []uint64`.
The map is modelled as a duplicate-free list with idempotent insert and
delete-all removal, matching Go map insert/delete semantics. -/

structure NonceManager where
  nonce : Option Nat
  pendingTxs : List Nat
  reclaimable : List Nat
deriving DecidableEq

/-- NewNonceManager: fresh manager, no cached nonce, empty pending set. -/
def NewNonceManager : NonceManager :=
  { nonce := none, pendingTxs := [], reclaimable := [] }

/-- Go map insert `m[n] = true`: a no-op when the key is already present. -/
def pendingInsert (l : List Nat) (n : Nat) : List Nat :=
  if n ∈ l then l else n :: l

/-- Go map `delete(m, n)`: removes the key, a no-op when absent. -/
def pendingDelete (l : List Nat) (n : Nat) : List Nat :=
  l.filter (fun x => x != n)

/-- The ascending in-place sort performed by `sort.Slice` in GetNonce. -/
def sortAsc (l : List Nat) : List Nat :=
  l.insertionSort (· ≤ ·)

/-- GetNonce (nonce.go lines 34-63).  `fetch` is the oracle value for the
`client.PendingNonceAt` RPC performed when the cached counter is nil
(`none` models an RPC error, in which case GetNonce fails and the state is
unchanged).  When the reclaimable pool is non-empty it is sorted ascending,
its head is returned and moved to the pending set; otherwise the cached
counter (fetched on first use) is returned and incremented. -/
def GetNonce (fetch : Option Nat) (nm : NonceManager) : Option (Nat × NonceManager) :=
  match sortAsc nm.reclaimable with
  | r :: rest =>
      some (r, { nm with reclaimable := rest, pendingTxs := pendingInsert nm.pendingTxs r })
  | [] =>
      match nm.nonce with
      | none =>
          match fetch with
          | none => none
          | some f =>
              some (f, { nm with nonce := some (f + 1),
                                 pendingTxs := pendingInsert nm.pendingTxs f })
      | some c =>
          some (c, { nm with nonce := some (c + 1),
                             pendingTxs := pendingInsert nm.pendingTxs c })

/-- MarkConfirmed (nonce.go lines 66-70): `delete(nm.pendingTxs, nonce)`. -/
def MarkConfirmed (n : Nat) (nm : NonceManager) : NonceManager :=
  { nm with pendingTxs := pendingDelete nm.pendingTxs n }

/-- MarkFailed (nonce.go lines 82-89): deletes the nonce from the pending set
and appends it to the reclaimable pool. -/
def MarkFailed (n : Nat) (nm : NonceManager) : NonceManager :=
  { nm with pendingTxs := pendingDelete nm.pendingTxs n,
            reclaimable := nm.reclaimable ++ [n] }

/-- Result of Reset: either success or the wrapped fetch error. -/
inductive ResetResult
  | ok
  | err (msg : String)
deriving DecidableEq

/-- Reset (nonce.go lines 92-105).  `fetch` is the oracle value of the
`client.PendingNonceAt` RPC.  On RPC error the wrapped error is returned and
nothing is mutated; on success the counter is replaced and both the pending
set and the reclaimable pool are cleared. -/
def Reset (fetch : Except String Nat) (nm : NonceManager) : ResetResult × NonceManager :=
  match fetch with
  | .error e => (.err ("failed to reset nonce: " ++ e), nm)
  | .ok f => (.ok, { nonce := some f, pendingTxs := [], reclaimable := [] })

/-! ## Operation traces over a nonce manager -/

/-- One call in a trace of nonce-manager operations.  A getNonce step carries
the oracle value of the network fetch it would perform if the counter is nil. -/
inductive NonceOp
  | getNonce (fetch : Option Nat)
  | markFailed (n : Nat)
  | markConfirmed (n : Nat)
deriving DecidableEq

/-- Effect of one operation on the manager state (a failed GetNonce leaves the
state unchanged). -/
def applyOp (nm : NonceManager) : NonceOp → NonceManager
  | .getNonce fetch =>
      match GetNonce fetch nm with
      | some (_, nm2) => nm2
      | none => nm
  | .markFailed n => MarkFailed n nm
  | .markConfirmed n => MarkConfirmed n nm

/-- Run a list of operations on the manager state. -/
def runOps (nm : NonceManager) : List NonceOp → NonceManager
  | [] => nm
  | op :: rest => runOps (applyOp nm op) rest

/-- Instrumented trace state: besides the manager it records the multiset of
live allocations (values returned by GetNonce and not yet passed to MarkFailed
or MarkConfirmed), the list of values each getNonce call returned, and whether
every GetNonce so far returned a value that was not already pending. -/
structure TraceState where
  nm : NonceManager
  live : List Nat
  rets : List (Option Nat)
  i2ok : Bool
deriving DecidableEq

/-- Fresh instrumented trace over a newly created manager. -/
def initTrace : TraceState :=
  { nm := NewNonceManager, live := [], rets := [], i2ok := true }

/-- One instrumented step. -/
def traceStep (t : TraceState) : NonceOp → TraceState
  | .getNonce fetch =>
      match GetNonce fetch t.nm with
      | some (v, nm2) =>
          { nm := nm2, live := t.live ++ [v], rets := t.rets ++ [some v],
            i2ok := t.i2ok && !(t.nm.pendingTxs.contains v) }
      | none => { t with rets := t.rets ++ [none] }
  | .markFailed n =>
      { t with nm := MarkFailed n t.nm, live := t.live.filter (fun x => x != n) }
  | .markConfirmed n =>
      { t with nm := MarkConfirmed n t.nm, live := t.live.filter (fun x => x != n) }

/-- Instrumented run. -/
def traceRun (t : TraceState) : List NonceOp → TraceState
  | [] => t
  | op :: rest => traceRun (traceStep t op) rest

/-- Usage discipline demanded by the MarkFailed documentation in nonce.go:
MarkFailed is called only for a nonce that is currently pending (an allocation
that was handed out and not yet finalized).  GetNonce and MarkConfirmed calls
are unrestricted. -/
def wfFailed (nm : NonceManager) : List NonceOp → Bool
  | [] => true
  | op :: rest =>
      (match op with
       | .markFailed n => decide (n ∈ nm.pendingTxs)
       | _ => true) && wfFailed (applyOp nm op) rest

/-! ## Receipt waiter (pkg/txutil, WaitForReceiptWithConfig)

Each tick of the poll loop is modelled by one element of a finite list of
poll outcomes; exhausting the list models the overall timeout firing. -/

/-- Outcome of one `client.TransactionReceipt` poll. -/
inductive PollResult
  | notFound
  | rpcError (e : String)
  | receipt (status : Nat)
deriving DecidableEq

/-- Terminal outcome of the receipt wait. -/
inductive WaitOutcome
  | confirmed (status : Nat)
  | failedOnchain (status : Nat)
  | rpcUnavailable (lastErr : String) (count : Nat) (polls : Nat)
  | timedOut (polls : Nat)
deriving DecidableEq

/-- Configuration of the receipt waiter.  Durations are nanosecond counts;
in this embedding they only shape the poll trace, which is supplied
explicitly. -/
structure ReceiptWaitConfig where
  timeout : Int
  pollInterval : Int
  maxConsecutiveErrors : Nat
deriving DecidableEq

/-- DefaultReceiptWaitConfig: 5 minutes, 1 second, 5 errors. -/
def DefaultReceiptWaitConfig : ReceiptWaitConfig :=
  { timeout := 300000000000, pollInterval := 1000000000, maxConsecutiveErrors := 5 }

/-- The poll loop of WaitForReceiptWithConfig.  State: remaining poll
outcomes, the consecutive-error counter, and the poll count.  A NotFound
response resets the counter and continues; any other RPC error increments it
and terminates with the RPC-failure error, carrying the last error, once the
counter reaches `maxErrors`; a receipt terminates at once, as on-chain failure
when its status is not 1 (ReceiptStatusSuccessful).  An exhausted list is the
context timeout firing, reporting the number of polls performed. -/
def waitLoop (maxErrors : Nat) : List PollResult → Nat → Nat → WaitOutcome
  | [], _, polls => .timedOut polls
  | .notFound :: rest, _, polls => waitLoop maxErrors rest 0 (polls + 1)
  | .rpcError e :: rest, consec, polls =>
      if consec + 1 ≥ maxErrors then .rpcUnavailable e (consec + 1) (polls + 1)
      else waitLoop maxErrors rest (consec + 1) (polls + 1)
  | .receipt st :: _, _, _ =>
      if st ≠ 1 then .failedOnchain st else .confirmed st

/-- WaitForReceiptWithConfig: applies the zero-value defaults of the Go code
(`maxErrors := 5` when the configured value is 0) and runs the poll loop from
zero counters. -/
def WaitForReceiptWithConfig (config : ReceiptWaitConfig) (polls : List PollResult) :
    WaitOutcome :=
  let maxErrors := if config.maxConsecutiveErrors = 0 then 5 else config.maxConsecutiveErrors
  waitLoop maxErrors polls 0 0

/-! ## Error classifier and retry loop (pkg/txutil/retry.go) -/

/-- Prefix test on character lists (strings.HasPrefix). -/
def listHasPrefix : List Char → List Char → Bool
  | _, [] => true
  | [], _ :: _ => false
  | c :: cs, d :: ds => c == d && listHasPrefix cs ds

/-- Substring test on character lists (strings.Contains). -/
def listContainsSub : List Char → List Char → Bool
  | [], sub => listHasPrefix [] sub
  | l@(_ :: rest), sub => listHasPrefix l sub || listContainsSub rest sub

/-- strings.Contains on strings. -/
def strContainsSub (s sub : String) : Bool :=
  listContainsSub s.toList sub.toList

/-- The vocabulary of transient failure signatures in IsRetryableError. -/
def retryableErrors : List String :=
  ["nonce too low", "replacement transaction underpriced", "already known",
   "timeout", "connection refused", "connection reset", "broken pipe",
   "i/o timeout"]

/-- IsRetryableError (retry.go lines 37-62): nil is never retryable; otherwise
the error string, lowercased rune by rune (strings.ToLower), is matched
against the vocabulary with strings.Contains. -/
def IsRetryableError : Option String → Bool
  | none => false
  | some err =>
      let errStr := err.toList.map Char.toLower
      retryableErrors.any (fun r => listContainsSub errStr r.toList)

/-- RetryConfig (retry.go lines 19-24).  Durations are nanosecond counts;
MaxRetries, a Go int, is modelled as Nat (the configuration surface requires
it to be nonnegative). -/
structure RetryConfig where
  maxRetries : Nat
  initialBackoff : Int
  maxBackoff : Int
  backoffMultiple : ℚ
deriving DecidableEq

/-- DefaultRetryConfig: 3 retries, 1s, 30s, times 2.0. -/
def DefaultRetryConfig : RetryConfig :=
  { maxRetries := 3, initialBackoff := 1000000000,
    maxBackoff := 30000000000, backoffMultiple := 2 }

/-- Outcome of one `client.SendTransaction` call. -/
inductive SendOutcome
  | success (hash : Nat)
  | failure (err : String)

/-- Environment of one SendTransactionWithRetry run: the outcome of the i-th
send call, and whether the cancellation signal fires during the backoff wait
preceding attempt i (only consulted for i ≥ 1). -/
structure SendEnv where
  send : Nat → SendOutcome
  cancelled : Nat → Bool

/-- Result of SendTransactionWithRetry. -/
inductive RetryResult
  | ok (hash : Nat)
  | ctxDone
  | nonRetryable (err : String)
  | maxRetriesExceeded (lastErr : Option String)
deriving DecidableEq

/-- The backoff update performed after the wait preceding a retry:
`backoff * multiple`, capped at `maxBackoff`.  Performed only before retries
(attempt > 0).  Go computes this in float64; the value feeds only the sleep
duration, which this embedding abstracts, so exact rational arithmetic is
used. -/
def stepBackoff (config : RetryConfig) (attempt : Nat) (backoff : ℚ) : ℚ :=
  if attempt > 0 then
    if backoff * config.backoffMultiple > (config.maxBackoff : ℚ) then
      (config.maxBackoff : ℚ)
    else backoff * config.backoffMultiple
  else backoff

/-- The retry loop of SendTransactionWithRetry (retry.go lines 65-95):
`for attempt := 0; attempt <= maxRetries; attempt++`.  Before each retry the
loop waits, returning the cancellation error at once when the signal fires
during the wait, then grows the backoff.  A successful send returns the hash;
a non-retryable failure aborts at once; after the loop the last error is
surfaced as max retries exceeded.  Besides the result it returns the number of
send calls performed. -/
def sendAttempts (env : SendEnv) (config : RetryConfig) :
    Nat → ℚ → Option String → Nat → RetryResult × Nat
  | attempt, backoff, lastErr, sends =>
    if _hstop : attempt > config.maxRetries then (.maxRetriesExceeded lastErr, sends)
    else if attempt > 0 && env.cancelled attempt then (.ctxDone, sends)
    else
      match env.send attempt with
      | .success hash => (.ok hash, sends + 1)
      | .failure e =>
          if IsRetryableError (some e) then
            sendAttempts env config (attempt + 1) (stepBackoff config attempt backoff)
              (some e) (sends + 1)
          else (.nonRetryable e, sends + 1)
termination_by attempt _ _ _ => config.maxRetries + 1 - attempt
decreasing_by simp_wf; omega

/-- SendTransactionWithRetry: runs the loop from attempt 0 with the initial
backoff, no last error, and zero sends performed. -/
def SendTransactionWithRetry (env : SendEnv) (config : RetryConfig) :
    RetryResult × Nat :=
  sendAttempts env config 0 (config.initialBackoff : ℚ) none 0

/-! ## Backoff policy (retry.go, CalculateBackoff / secureRandomInt64n) -/

/-- secureRandomInt64n (retry.go lines 130-142): returns 0 when n ≤ 0 or when
the entropy source fails (`entropy = none`); otherwise the random uint64 is
reduced modulo n. -/
def secureRandomInt64n (entropy : Option Nat) (n : Int) : Int :=
  if n ≤ 0 then 0
  else
    match entropy with
    | none => 0
    | some r => ((r % n.toNat : Nat) : Int)

/-- Truncation toward zero of a rational: the conversion a Go float64 to
int64 cast performs. -/
def ratTrunc (q : ℚ) : Int :=
  if q < 0 then ⌈q⌉ else ⌊q⌋

/-- CalculateBackoff (retry.go lines 115-126): computes
`initialBackoff * multiplier ^ attempt` (a float64 product of nanosecond
durations, converted back to an integer duration by truncation), caps it at
`maxBackoff`, and returns `half + jitter` where `half` is the truncating
integer half of the capped value (Go int64 division) and `jitter` is drawn
from `[0, half]` via `secureRandomInt64n (half + 1)`. -/
def CalculateBackoff (attempt : Nat) (initialBackoff maxBackoff : Int)
    (multiplier : ℚ) (entropy : Option Nat) : Int :=
  let backoff : Int := ratTrunc ((initialBackoff : ℚ) * multiplier ^ attempt)
  let backoff := if backoff > maxBackoff then maxBackoff else backoff
  let halfBackoff := Int.tdiv backoff 2
  let jitter := secureRandomInt64n entropy (halfBackoff + 1)
  halfBackoff + jitter

/-! ## Gas utility (pkg/txutil/gas.go) -/

/-- EstimateGasWithBuffer (gas.go lines 23-40).  `estimateResult` is the
oracle value of the `client.EstimateGas` RPC (`none` models an RPC error).
The second component counts the network calls performed: the range check on
`bufferPercent` happens before the single EstimateGas call.  The buffer is
`gasLimit * bufferPercent / 100` computed exactly (big.Int in Go). -/
def EstimateGasWithBuffer (estimateResult : Option Nat) (bufferPercent : Int) :
    Except String Nat × Nat :=
  if bufferPercent < 0 ∨ bufferPercent > 100 then
    (.error "buffer percent must be between 0 and 100", 0)
  else
    match estimateResult with
    | none => (.error "failed to estimate gas", 1)
    | some gasLimit =>
        if bufferPercent > 0 then
          (.ok (gasLimit + gasLimit * bufferPercent.toNat / 100), 1)
        else (.ok gasLimit, 1)

/-! ## Manager construction (pdp/manager.go, NewManagerWithConfig)

ManagerConfig and DefaultManagerConfig are declared outside the sources at
hand; the struct shape follows its uses in manager.go (GasBufferPercent, a Go
int, and ContractAddress) and the default GasBufferPercent of 10 asserted by
TestDefaultManagerConfig. -/

structure ManagerConfig where
  gasBufferPercent : Int
  contractAddress : Option Nat
deriving DecidableEq

/-- Default configuration (GasBufferPercent 10, zero contract address). -/
def DefaultManagerConfig : ManagerConfig :=
  { gasBufferPercent := 10, contractAddress := none }

/-- Environment of one NewManagerWithConfig run: whether a signer was given,
the chain id expected for the requested network (none for an unknown
network), the oracle value of the `client.ChainID` RPC (none models an RPC
error; performing this call counts as a network call), the PDPVerifier
address registered for the network, and whether the contract binding could be
created. -/
structure NewManagerEnv where
  signerPresent : Bool
  expectedChainID : Option Int
  chainIDResult : Option Int
  verifierAddress : Option Nat
  contractOk : Bool
deriving DecidableEq

/-- The error exits of NewManagerWithConfig, in source order. -/
inductive NewManagerError
  | signerRequired
  | unknownNetwork
  | chainIDFailed
  | chainIDMismatch
  | gasBufferInvalid
  | noVerifierAddress
  | contractFailed
deriving DecidableEq

/-- The fields of the constructed manager that this embedding tracks. -/
structure ManagerR where
  chainID : Int
  contractAddr : Nat
  config : ManagerConfig
deriving DecidableEq

/-- NewManagerWithConfig (manager.go lines 101-157).  The second component
counts network RPC calls performed (only `client.ChainID` is one; the
contract binding performs no RPC).  The source order is: signer check,
network lookup, ChainID fetch and comparison, config defaulting, then the
GasBufferPercent range check, then contract-address resolution and binding. -/
def NewManagerWithConfig (env : NewManagerEnv) (config : Option ManagerConfig) :
    Except NewManagerError ManagerR × Nat :=
  if env.signerPresent = false then (.error .signerRequired, 0)
  else
    match env.expectedChainID with
    | none => (.error .unknownNetwork, 0)
    | some expected =>
        match env.chainIDResult with
        | none => (.error .chainIDFailed, 1)
        | some chainID =>
            if chainID ≠ expected then (.error .chainIDMismatch, 1)
            else
              let cfg := config.getD DefaultManagerConfig
              if cfg.gasBufferPercent < 0 ∨ cfg.gasBufferPercent > 100 then
                (.error .gasBufferInvalid, 1)
              else
                let addr := match cfg.contractAddress with
                  | some a => some a
                  | none => env.verifierAddress
                match addr with
                | none => (.error .noVerifierAddress, 1)
                | some a =>
                    if env.contractOk then (.ok { chainID := chainID, contractAddr := a, config := cfg }, 1)
                    else (.error .contractFailed, 1)

/-! ## CreateProofSet (pdp/manager.go lines 178-236)

The orchestrated operation: allocate a nonce, register a deferred cleanup
that calls MarkFailed unless the transaction was sent, build the transactor,
dry-run the contract call to estimate gas, send, wait for the receipt, mark
the nonce confirmed and extract the proof-set id.  Each network or signer
interaction is an oracle value. -/

structure CreateOracle where
  nonceFetch : Option Nat
  transactorOk : Bool
  estimateGas : Option Nat
  sendHash : Option Nat
  receiptOk : Bool
  extractID : Option Nat

/-- The error exits of CreateProofSet, in source order. -/
inductive CreateError
  | getNonceFailed
  | transactorFailed
  | estimateFailed
  | sendFailed
  | receiptFailed
  | extractFailed
deriving DecidableEq

deriving instance DecidableEq for Except

/-- Observable outcome of one CreateProofSet run: the result, the final
nonce-manager state, and the arguments of the MarkFailed and MarkConfirmed
calls made, in order. -/
structure CreateLog where
  result : Except CreateError (Nat × Nat)
  nm : NonceManager
  markFailedCalls : List Nat
  markConfirmedCalls : List Nat
  gasLimitUsed : Option Nat
deriving DecidableEq

/-- CreateProofSet.  The Go code sets `txSent := false` after allocating the
nonce and defers `if !txSent { MarkFailed(nonce) }`; here every exit path
before the send call succeeds applies MarkFailed and records the call, and
every later exit path leaves the manager untouched except for MarkConfirmed
after a successful receipt.  The gas limit applies the configured buffer to
the dry-run estimate (a float64 product, floored). -/
def CreateProofSet (o : CreateOracle) (gasBufferPercent : Int) (nm : NonceManager) :
    CreateLog :=
  match GetNonce o.nonceFetch nm with
  | none => { result := .error .getNonceFailed, nm := nm,
              markFailedCalls := [], markConfirmedCalls := [], gasLimitUsed := none }
  | some (nonce, nm1) =>
      if o.transactorOk = false then
        { result := .error .transactorFailed, nm := MarkFailed nonce nm1,
          markFailedCalls := [nonce], markConfirmedCalls := [], gasLimitUsed := none }
      else
        match o.estimateGas with
        | none =>
            { result := .error .estimateFailed, nm := MarkFailed nonce nm1,
              markFailedCalls := [nonce], markConfirmedCalls := [], gasLimitUsed := none }
        | some gas =>
            let gasLimit : Nat :=
              (⌊(gas : ℚ) * (1 + (gasBufferPercent : ℚ) / 100)⌋).toNat
            match o.sendHash with
            | none =>
                { result := .error .sendFailed, nm := MarkFailed nonce nm1,
                  markFailedCalls := [nonce], markConfirmedCalls := [],
                  gasLimitUsed := some gasLimit }
            | some hash =>
                if o.receiptOk = false then
                  { result := .error .receiptFailed, nm := nm1,
                    markFailedCalls := [], markConfirmedCalls := [],
                    gasLimitUsed := some gasLimit }
                else
                  let nm2 := MarkConfirmed nonce nm1
                  match o.extractID with
                  | none =>
                      { result := .error .extractFailed, nm := nm2,
                        markFailedCalls := [], markConfirmedCalls := [nonce],
                        gasLimitUsed := some gasLimit }
                  | some pid =>
                      { result := .ok (pid, hash), nm := nm2,
                        markFailedCalls := [], markConfirmedCalls := [nonce],
                        gasLimitUsed := some gasLimit }

/-! ## Basic lemmas -/

theorem mem_pendingInsert_self (l : List Nat) (n : Nat) : n ∈ pendingInsert l n := by
  unfold pendingInsert
  split
  · assumption
  · exact List.mem_cons_self _ _

theorem getNonce_mem_pending {fetch : Option Nat} {nm nm1 : NonceManager} {n : Nat}
    (h : GetNonce fetch nm = some (n, nm1)) : n ∈ nm1.pendingTxs := by
  unfold GetNonce at h
  split at h
  · cases h
    exact mem_pendingInsert_self _ _
  · split at h
    · split at h
      · cases h
      · cases h
        exact mem_pendingInsert_self _ _
    · cases h
      exact mem_pendingInsert_self _ _

/-! ## Claim theorems -/

/-- Claim C3: allocating nonces 10, 11, 12 (initial network fetch 10), then
calling MarkFailed(11) and MarkFailed(10), makes the next three GetNonce calls
return 10, then 11, then 13: the reclaimable pool is drained smallest-first
before the counter (which reached 13) mints a new value. -/
theorem getNonce_scenario_fills_gaps_first :
    (traceRun initTrace
      [.getNonce (some 10), .getNonce none, .getNonce none,
       .markFailed 11, .markFailed 10,
       .getNonce none, .getNonce none, .getNonce none]).rets =
      [some 10, some 11, some 12, some 10, some 11, some 13] ∧
    (traceRun initTrace
      [.getNonce (some 10), .getNonce none, .getNonce none,
       .markFailed 11, .markFailed 10,
       .getNonce none, .getNonce none, .getNonce none]).nm.nonce = some 14 := by
  decide

/-- Claim C8: MarkConfirmed removes the nonce from the pending set and changes
nothing else: the reclaimable pool and the cached counter are untouched, the
call is a no-op when the nonce is absent, and a second application changes
nothing further (the operation is total, so no run can panic). -/
theorem markConfirmed_frame (nm : NonceManager) (n : Nat) :
    (MarkConfirmed n nm).reclaimable = nm.reclaimable ∧
    (MarkConfirmed n nm).nonce = nm.nonce ∧
    (∀ x, x ∈ (MarkConfirmed n nm).pendingTxs ↔ x ∈ nm.pendingTxs ∧ x ≠ n) ∧
    (n ∉ nm.pendingTxs → MarkConfirmed n nm = nm) ∧
    MarkConfirmed n (MarkConfirmed n nm) = MarkConfirmed n nm := by
  obtain ⟨no, pe, re⟩ := nm
  refine ⟨rfl, rfl, ?_, ?_, ?_⟩
  · intro x
    simp [MarkConfirmed, pendingDelete, List.mem_filter]
  · intro h
    simp only [MarkConfirmed, pendingDelete, NonceManager.mk.injEq, and_true, true_and]
    refine List.filter_eq_self.mpr ?_
    intro a ha
    simp only [bne_iff_ne, ne_eq]
    intro heq
    exact h (heq ▸ ha)
  · simp [MarkConfirmed, pendingDelete, List.filter_filter]

/-- Witness for C8 at a concrete state. -/
theorem markConfirmed_frame_witness :
    (MarkConfirmed 5 ⟨some 3, [1], [2]⟩).reclaimable = [2] ∧
    MarkConfirmed 5 ⟨some 3, [1], [2]⟩ = ⟨some 3, [1], [2]⟩ := by
  have h := markConfirmed_frame ⟨some 3, [1], [2]⟩ 5
  exact ⟨h.1, h.2.2.2.1 (by decide)⟩

/-- Claim C10: when the network re-fetch fails, Reset returns the wrapped
fetch error and leaves the cached counter, the pending set and the
reclaimable pool exactly as they were. -/
theorem reset_atomic_on_failure (nm : NonceManager) (e : String) :
    (Reset (.error e) nm).1 = .err ("failed to reset nonce: " ++ e) ∧
    (Reset (.error e) nm).2.nonce = nm.nonce ∧
    (Reset (.error e) nm).2.pendingTxs = nm.pendingTxs ∧
    (Reset (.error e) nm).2.reclaimable = nm.reclaimable :=
  ⟨rfl, rfl, rfl, rfl⟩

/-- Claim C2: in CreateProofSet, whenever the nonce allocation succeeded, on
every exit path on which the send call has not returned successfully
MarkFailed is called exactly once with that nonce; and on every exit path on
which the send succeeded but the receipt wait fails, MarkFailed is not
called, the manager state is exactly the post-allocation state, the nonce is
still pending and the reclaimable pool is untouched. -/
theorem createProofSet_nonce_lifecycle (o : CreateOracle) (p : Int)
    (nm nm1 : NonceManager) (n : Nat)
    (halloc : GetNonce o.nonceFetch nm = some (n, nm1)) :
    ((o.transactorOk = false ∨ o.estimateGas = none ∨ o.sendHash = none) →
      (CreateProofSet o p nm).markFailedCalls = [n]) ∧
    (o.transactorOk = true → o.estimateGas ≠ none → o.sendHash ≠ none →
      o.receiptOk = false →
      (CreateProofSet o p nm).markFailedCalls = [] ∧
      (CreateProofSet o p nm).markConfirmedCalls = [] ∧
      (CreateProofSet o p nm).nm = nm1 ∧
      n ∈ (CreateProofSet o p nm).nm.pendingTxs ∧
      (CreateProofSet o p nm).nm.reclaimable = nm1.reclaimable) := by
  have hmem : n ∈ nm1.pendingTxs := getNonce_mem_pending halloc
  obtain ⟨f, tOk, eg, sh, rOk, ex⟩ := o
  simp only at halloc
  cases tOk <;> cases eg <;> cases sh <;> cases rOk <;>
    simp_all [CreateProofSet]

/-- Witness for C2 at a concrete oracle and state: the send succeeded and the
receipt wait failed, so MarkFailed is not called and the nonce stays
pending. -/
theorem createProofSet_nonce_lifecycle_witness :
    (CreateProofSet ⟨some 0, true, some 100, some 77, false, none⟩ 10
        NewNonceManager).markFailedCalls = [] ∧
    0 ∈ (CreateProofSet ⟨some 0, true, some 100, some 77, false, none⟩ 10
        NewNonceManager).nm.pendingTxs := by
  have h := createProofSet_nonce_lifecycle ⟨some 0, true, some 100, some 77, false, none⟩
    10 NewNonceManager ⟨some 1, [0], []⟩ 0 (by decide)
  have h2 := h.2 rfl (by decide) (by decide) rfl
  exact ⟨h2.1, h2.2.2.2.1⟩

/-! ## Receipt waiter lemmas (C4) -/

theorem waitLoop_notFound_resets (m : Nat) (rest : List PollResult) (c p : Nat) :
    waitLoop m (.notFound :: rest) c p = waitLoop m rest 0 (p + 1) := rfl

theorem waitLoop_rpcError_continues (m : Nat) (e : String) (rest : List PollResult)
    (c p : Nat) (h : c + 1 < m) :
    waitLoop m (.rpcError e :: rest) c p = waitLoop m rest (c + 1) (p + 1) := by
  simp only [waitLoop]
  rw [if_neg (by omega)]

theorem waitLoop_rpcError_terminates (m : Nat) (e : String) (rest : List PollResult)
    (c p : Nat) (h : m ≤ c + 1) :
    waitLoop m (.rpcError e :: rest) c p = .rpcUnavailable e (c + 1) (p + 1) := by
  simp only [waitLoop]
  rw [if_pos (by omega)]

theorem waitLoop_errorRun (m : Nat) (es : List String) (rest : List PollResult) :
    ∀ c p, c + es.length < m →
      waitLoop m (es.map PollResult.rpcError ++ rest) c p =
        waitLoop m rest (c + es.length) (p + es.length) := by
  induction es with
  | nil => intro c p _; simp
  | cons e es ih =>
      intro c p h
      simp only [List.length_cons] at h
      simp only [List.map_cons, List.cons_append]
      rw [waitLoop_rpcError_continues m e _ c p (by omega)]
      rw [ih (c + 1) (p + 1) (by omega)]
      have h1 : c + 1 + es.length = c + (e :: es).length := by simp; omega
      have h2 : p + 1 + es.length = p + (e :: es).length := by simp; omega
      rw [h1, h2]

/-- Claim C4: in the receipt waiter, a NotFound poll resets the
consecutive-error counter to zero and polling continues; any other RPC error
increments it, the wait continuing when the counter stays below
maxConsecutiveErrors and terminating with the RPC-failure outcome (carrying
the last error) exactly when it reaches it; five consecutive generic errors
with maxConsecutiveErrors 5 terminate the wait, while a NotFound interleaved
among them prevents that termination (the trace then runs to the timeout). -/
theorem waitForReceipt_error_counting :
    (∀ m rest c p, waitLoop m (.notFound :: rest) c p = waitLoop m rest 0 (p + 1)) ∧
    (∀ (m : Nat) e rest c p, c + 1 < m →
       waitLoop m (.rpcError e :: rest) c p = waitLoop m rest (c + 1) (p + 1)) ∧
    (∀ (m : Nat) e rest c p, m ≤ c + 1 →
       waitLoop m (.rpcError e :: rest) c p = .rpcUnavailable e (c + 1) (p + 1)) ∧
    (WaitForReceiptWithConfig ⟨300000000000, 1000000000, 5⟩
       (List.replicate 5 (.rpcError "boom")) = .rpcUnavailable "boom" 5 5) ∧
    (∀ l1 l2 : List String, l1.length + l2.length = 5 →
       1 ≤ l1.length → l1.length ≤ 4 →
       WaitForReceiptWithConfig ⟨300000000000, 1000000000, 5⟩
         (l1.map PollResult.rpcError ++ .notFound :: l2.map PollResult.rpcError) =
         .timedOut 6) := by
  refine ⟨fun m rest c p => rfl, waitLoop_rpcError_continues,
    waitLoop_rpcError_terminates, by decide, ?_⟩
  intro l1 l2 hlen h1 h4
  show waitLoop 5 _ 0 0 = WaitOutcome.timedOut 6
  rw [waitLoop_errorRun 5 l1 _ 0 0 (by omega)]
  rw [waitLoop_notFound_resets]
  rw [← List.append_nil (l2.map PollResult.rpcError)]
  rw [waitLoop_errorRun 5 l2 [] 0 _ (by omega)]
  show WaitOutcome.timedOut _ = WaitOutcome.timedOut 6
  congr 1
  omega

/-- Witness for C4: one generic error, an interleaved NotFound, then four
more generic errors run to the timeout instead of the RPC-failure outcome. -/
theorem waitForReceipt_error_counting_witness :
    WaitForReceiptWithConfig ⟨300000000000, 1000000000, 5⟩
      [PollResult.rpcError "a", .notFound, .rpcError "b", .rpcError "c",
       .rpcError "d", .rpcError "e"] = .timedOut 6 := by
  have h := waitForReceipt_error_counting.2.2.2.2 ["a"] ["b", "c", "d", "e"]
    (by decide) (by decide) (by decide)
  simpa using h

/-! ## C1: uniqueness of live allocations -/

/-- Counterexample to claim C1 as stated: the sequence MarkFailed(7),
MarkFailed(7), GetNonce, GetNonce (no network fetch needed) makes both
GetNonce calls return 7, so two live allocations are equal, and the second
call returns a value already present in the pending set. -/
theorem live_nonce_collision_counterexample :
    ¬ (traceRun initTrace
        [.markFailed 7, .markFailed 7, .getNonce none, .getNonce none]).live.Nodup ∧
    (traceRun initTrace
        [.markFailed 7, .markFailed 7, .getNonce none, .getNonce none]).i2ok = false := by
  decide

/-! ## Nonce-manager invariant -/

theorem mem_pendingInsert {x n : Nat} {l : List Nat} :
    x ∈ pendingInsert l n ↔ x = n ∨ x ∈ l := by
  unfold pendingInsert
  split
  · next h =>
      constructor
      · intro hx
        exact Or.inr hx
      · rintro (rfl | hx)
        · exact h
        · exact hx
  · exact List.mem_cons

theorem nodup_pendingInsert {l : List Nat} {n : Nat} (h : l.Nodup) :
    (pendingInsert l n).Nodup := by
  unfold pendingInsert
  split
  · exact h
  · next hn => exact List.nodup_cons.mpr ⟨hn, h⟩

theorem mem_pendingDelete {x n : Nat} {l : List Nat} :
    x ∈ pendingDelete l n ↔ x ∈ l ∧ x ≠ n := by
  simp [pendingDelete, List.mem_filter]

theorem nodup_pendingDelete {l : List Nat} {n : Nat} (h : l.Nodup) :
    (pendingDelete l n).Nodup :=
  h.filter _

theorem sortAsc_perm (l : List Nat) : List.Perm (sortAsc l) l :=
  List.perm_insertionSort _ l

/-- The state invariant of the nonce manager: the pending set and the
reclaimable pool are duplicate-free and disjoint, they are empty while the
counter is unfetched, and all their members are below the counter once it is
set. -/
def Inv (nm : NonceManager) : Prop :=
  nm.pendingTxs.Nodup ∧ nm.reclaimable.Nodup ∧
  (∀ x ∈ nm.reclaimable, x ∉ nm.pendingTxs) ∧
  (nm.nonce = none → nm.pendingTxs = [] ∧ nm.reclaimable = []) ∧
  (∀ c, nm.nonce = some c →
    (∀ x ∈ nm.pendingTxs, x < c) ∧ (∀ x ∈ nm.reclaimable, x < c))

theorem inv_init : Inv NewNonceManager := by
  refine ⟨List.nodup_nil, List.nodup_nil, ?_, ?_, ?_⟩ <;> simp [NewNonceManager]

/-- The pending set after a successful GetNonce is the old one plus the
returned value. -/
theorem getNonce_pending_eq {fetch : Option Nat} {nm nm1 : NonceManager} {v : Nat}
    (h : GetNonce fetch nm = some (v, nm1)) :
    nm1.pendingTxs = pendingInsert nm.pendingTxs v := by
  obtain ⟨nonce, pending, recl⟩ := nm
  cases hsort : sortAsc recl with
  | cons r rest =>
      simp only [GetNonce, hsort, Option.some.injEq, Prod.mk.injEq] at h
      obtain ⟨rfl, rfl⟩ := h
      rfl
  | nil =>
      cases nonce with
      | none =>
          cases fetch with
          | none => simp [GetNonce, hsort] at h
          | some f =>
              simp only [GetNonce, hsort, Option.some.injEq, Prod.mk.injEq] at h
              obtain ⟨rfl, rfl⟩ := h
              rfl
      | some c =>
          simp only [GetNonce, hsort, Option.some.injEq, Prod.mk.injEq] at h
          obtain ⟨rfl, rfl⟩ := h
          rfl

/-- A successful GetNonce in an invariant-respecting state returns a value
that is not already pending. -/
theorem getNonce_fresh {fetch : Option Nat} {nm nm1 : NonceManager} {v : Nat}
    (hinv : Inv nm) (h : GetNonce fetch nm = some (v, nm1)) :
    v ∉ nm.pendingTxs := by
  obtain ⟨nonce, pending, recl⟩ := nm
  obtain ⟨-, -, hdisj, hnone, hsome⟩ := hinv
  cases hsort : sortAsc recl with
  | cons r rest =>
      simp only [GetNonce, hsort, Option.some.injEq, Prod.mk.injEq] at h
      obtain ⟨rfl, -⟩ := h
      refine hdisj _ ?_
      exact (sortAsc_perm recl).mem_iff.mp (hsort ▸ List.mem_cons_self _ _)
  | nil =>
      cases nonce with
      | none =>
          cases fetch with
          | none => simp [GetNonce, hsort] at h
          | some f =>
              simp only [GetNonce, hsort, Option.some.injEq, Prod.mk.injEq] at h
              obtain ⟨rfl, -⟩ := h
              have hpe : pending = [] := (hnone rfl).1
              simp [hpe]
      | some c =>
          simp only [GetNonce, hsort, Option.some.injEq, Prod.mk.injEq] at h
          obtain ⟨rfl, -⟩ := h
          intro hv
          exact absurd ((hsome c rfl).1 c hv) (lt_irrefl c)

/-- A successful GetNonce preserves the invariant. -/
theorem inv_getNonce_some {fetch : Option Nat} {nm nm1 : NonceManager} {v : Nat}
    (hinv : Inv nm) (h : GetNonce fetch nm = some (v, nm1)) : Inv nm1 := by
  obtain ⟨nonce, pending, recl⟩ := nm
  obtain ⟨hpnd, hrnd, hdisj, hnone, hsome⟩ := hinv
  cases hsort : sortAsc recl with
  | cons r rest =>
      simp only [GetNonce, hsort, Option.some.injEq, Prod.mk.injEq] at h
      obtain ⟨rfl, rfl⟩ := h
      have hperm := sortAsc_perm recl
      have hsortnd : (r :: rest).Nodup := by
        rw [← hsort]
        exact hperm.nodup_iff.mpr hrnd
      have hrmem : r ∈ recl := hperm.mem_iff.mp (hsort ▸ List.mem_cons_self _ _)
      have hrestmem : ∀ x ∈ rest, x ∈ recl := fun x hx =>
        hperm.mem_iff.mp (hsort ▸ List.mem_cons_of_mem _ hx)
      obtain ⟨hrnotin, hrestnd⟩ := List.nodup_cons.mp hsortnd
      refine ⟨nodup_pendingInsert hpnd, hrestnd, ?_, ?_, ?_⟩
      · intro x hx
        rw [mem_pendingInsert]
        rintro (rfl | hmem)
        · exact hrnotin hx
        · exact hdisj x (hrestmem x hx) hmem
      · intro hn
        exact absurd ((hnone hn).2 ▸ hrmem) (List.not_mem_nil r)
      · intro c hc
        refine ⟨?_, fun x hx => (hsome c hc).2 x (hrestmem x hx)⟩
        intro x hx
        rcases mem_pendingInsert.mp hx with rfl | hmem
        · exact (hsome c hc).2 x hrmem
        · exact (hsome c hc).1 x hmem
  | nil =>
      have hrecl : recl = [] := by
        have h2 := (sortAsc_perm recl).symm
        rw [hsort] at h2
        exact h2.eq_nil
      subst hrecl
      cases nonce with
      | none =>
          cases fetch with
          | none => simp [GetNonce, hsort] at h
          | some f =>
              simp only [GetNonce, hsort, Option.some.injEq, Prod.mk.injEq] at h
              obtain ⟨rfl, rfl⟩ := h
              have hpe : pending = [] := (hnone rfl).1
              subst hpe
              refine ⟨nodup_pendingInsert hpnd, List.nodup_nil, ?_, ?_, ?_⟩
              · intro x hx
                simp at hx
              · intro hc
                exact Option.noConfusion hc
              · intro c hc
                have hc2 : f + 1 = c := by simpa using hc
                subst hc2
                refine ⟨?_, by simp⟩
                intro x hx
                replace hx : x ∈ pendingInsert [] f := hx
                rcases mem_pendingInsert.mp hx with rfl | hmem
                · omega
                · simp at hmem
      | some c =>
          simp only [GetNonce, hsort, Option.some.injEq, Prod.mk.injEq] at h
          obtain ⟨rfl, rfl⟩ := h
          refine ⟨nodup_pendingInsert hpnd, List.nodup_nil, ?_, ?_, ?_⟩
          · intro x hx
            simp at hx
          · intro hc
            exact Option.noConfusion hc
          · intro c2 hc2
            have hc3 : c + 1 = c2 := by simpa using hc2
            subst hc3
            refine ⟨?_, by simp⟩
            intro x hx
            replace hx : x ∈ pendingInsert pending c := hx
            rcases mem_pendingInsert.mp hx with rfl | hmem
            · omega
            · exact Nat.lt_succ_of_lt ((hsome c rfl).1 x hmem)

/-- MarkConfirmed preserves the invariant. -/
theorem inv_markConfirmed {nm : NonceManager} (n : Nat) (hinv : Inv nm) :
    Inv (MarkConfirmed n nm) := by
  obtain ⟨hpnd, hrnd, hdisj, hnone, hsome⟩ := hinv
  refine ⟨nodup_pendingDelete hpnd, hrnd, ?_, ?_, ?_⟩
  · intro x hx hmem
    exact hdisj x hx (mem_pendingDelete.mp hmem).1
  · intro hn
    obtain ⟨hpe, hre⟩ := hnone hn
    exact ⟨by simp [MarkConfirmed, pendingDelete, hpe], hre⟩
  · intro c hc
    refine ⟨?_, (hsome c hc).2⟩
    intro x hx
    exact (hsome c hc).1 x (mem_pendingDelete.mp hx).1

/-- MarkFailed on a pending nonce preserves the invariant. -/
theorem inv_markFailed {nm : NonceManager} {n : Nat} (hinv : Inv nm)
    (hn : n ∈ nm.pendingTxs) : Inv (MarkFailed n nm) := by
  obtain ⟨hpnd, hrnd, hdisj, hnone, hsome⟩ := hinv
  refine ⟨nodup_pendingDelete hpnd, ?_, ?_, ?_, ?_⟩
  · show (nm.reclaimable ++ [n]).Nodup
    rw [List.nodup_append]
    refine ⟨hrnd, List.nodup_singleton n, ?_⟩
    intro x hx
    simp only [List.mem_singleton]
    rintro rfl
    exact hdisj x hx hn
  · intro x hx hmem
    rcases List.mem_append.mp hx with hxr | hxs
    · exact hdisj x hxr (mem_pendingDelete.mp hmem).1
    · rw [List.mem_singleton] at hxs
      subst hxs
      exact (mem_pendingDelete.mp hmem).2 rfl
  · intro hnn
    exact absurd ((hnone hnn).1 ▸ hn) (List.not_mem_nil n)
  · intro c hc
    refine ⟨fun x hx => (hsome c hc).1 x (mem_pendingDelete.mp hx).1, ?_⟩
    intro x hx
    rcases List.mem_append.mp hx with hxr | hxs
    · exact (hsome c hc).2 x hxr
    · rw [List.mem_singleton] at hxs
      subst hxs
      exact (hsome c hc).1 x hn

/-- The condition that the usage discipline imposes on a single operation. -/
def opOk (nm : NonceManager) : NonceOp → Prop
  | .markFailed n => n ∈ nm.pendingTxs
  | _ => True

theorem inv_applyOp {nm : NonceManager} {op : NonceOp} (hinv : Inv nm)
    (hok : opOk nm op) : Inv (applyOp nm op) := by
  cases op with
  | getNonce fetch =>
      cases hg : GetNonce fetch nm with
      | none => simpa [applyOp, hg] using hinv
      | some r =>
          obtain ⟨v, nm2⟩ := r
          simpa [applyOp, hg] using inv_getNonce_some hinv hg
  | markFailed n => exact inv_markFailed hinv hok
  | markConfirmed n => exact inv_markConfirmed n hinv

theorem wfFailed_cons {nm : NonceManager} {op : NonceOp} {rest : List NonceOp}
    (h : wfFailed nm (op :: rest) = true) :
    opOk nm op ∧ wfFailed (applyOp nm op) rest = true := by
  unfold wfFailed at h
  rw [Bool.and_eq_true] at h
  obtain ⟨h1, h2⟩ := h
  refine ⟨?_, h2⟩
  cases op with
  | getNonce fetch => trivial
  | markFailed n =>
      simp only [opOk]
      exact of_decide_eq_true h1
  | markConfirmed n => trivial

theorem inv_runOps (ops : List NonceOp) :
    ∀ nm : NonceManager, Inv nm → wfFailed nm ops = true → Inv (runOps nm ops) := by
  induction ops with
  | nil => exact fun nm h _ => h
  | cons op rest ih =>
      intro nm hinv hwf
      obtain ⟨hok, hwf2⟩ := wfFailed_cons hwf
      exact ih _ (inv_applyOp hinv hok) hwf2

theorem runOps_append (l1 l2 : List NonceOp) :
    ∀ nm, runOps nm (l1 ++ l2) = runOps (runOps nm l1) l2 := by
  induction l1 with
  | nil => intro nm; rfl
  | cons op rest ih =>
      intro nm
      simp only [List.cons_append, runOps]
      exact ih _

theorem wfFailed_append (l1 l2 : List NonceOp) :
    ∀ nm, wfFailed nm (l1 ++ l2) =
      (wfFailed nm l1 && wfFailed (runOps nm l1) l2) := by
  induction l1 with
  | nil => intro nm; simp [wfFailed, runOps]
  | cons op rest ih =>
      intro nm
      simp only [List.cons_append, wfFailed, List.append_eq, runOps, ih, Bool.and_assoc]

/-- Branch characterization of a successful GetNonce: it either serves the
head of the sorted reclaimable pool, or mints from the cached counter, or
fetches and mints. -/
theorem getNonce_cases {fetch : Option Nat} {nm nm2 : NonceManager} {v : Nat}
    (h : GetNonce fetch nm = some (v, nm2)) :
    (v ∈ nm.reclaimable ∧
     nm2.pendingTxs = pendingInsert nm.pendingTxs v ∧
     (∀ x ∈ nm2.reclaimable, x ∈ nm.reclaimable) ∧
     nm2.nonce = nm.nonce) ∨
    (nm.nonce = some v ∧
     nm2.pendingTxs = pendingInsert nm.pendingTxs v ∧
     nm2.reclaimable = nm.reclaimable ∧
     nm2.nonce = some (v + 1)) ∨
    (nm.nonce = none ∧ fetch = some v ∧
     nm2.pendingTxs = pendingInsert nm.pendingTxs v ∧
     nm2.reclaimable = nm.reclaimable ∧
     nm2.nonce = some (v + 1)) := by
  obtain ⟨nonce, pending, recl⟩ := nm
  cases hsort : sortAsc recl with
  | cons r rest =>
      simp only [GetNonce, hsort, Option.some.injEq, Prod.mk.injEq] at h
      obtain ⟨rfl, rfl⟩ := h
      left
      have hperm := sortAsc_perm recl
      refine ⟨hperm.mem_iff.mp (hsort ▸ List.mem_cons_self _ _), rfl, ?_, rfl⟩
      intro x hx
      exact hperm.mem_iff.mp (hsort ▸ List.mem_cons_of_mem _ hx)
  | nil =>
      have hrecl : recl = [] := by
        have h2 := (sortAsc_perm recl).symm
        rw [hsort] at h2
        exact h2.eq_nil
      subst hrecl
      cases nonce with
      | none =>
          cases fetch with
          | none => simp [GetNonce, hsort] at h
          | some f =>
              simp only [GetNonce, hsort, Option.some.injEq, Prod.mk.injEq] at h
              obtain ⟨rfl, rfl⟩ := h
              right; right
              exact ⟨rfl, rfl, rfl, rfl, rfl⟩
      | some c =>
          simp only [GetNonce, hsort, Option.some.injEq, Prod.mk.injEq] at h
          obtain ⟨rfl, rfl⟩ := h
          right; left
          exact ⟨rfl, rfl, rfl, rfl⟩

/-! ## C7: permanence of confirmation -/

/-- A nonce that is fully retired: not pending, not reclaimable, and strictly
below the cached counter. -/
def Retired (n : Nat) (nm : NonceManager) : Prop :=
  n ∉ nm.pendingTxs ∧ n ∉ nm.reclaimable ∧ ∃ c, nm.nonce = some c ∧ n < c

theorem retired_applyOp {n : Nat} {nm : NonceManager} {op : NonceOp}
    (hr : Retired n nm) (hok : opOk nm op) : Retired n (applyOp nm op) := by
  obtain ⟨hp, hrc, c, hc, hlt⟩ := hr
  cases op with
  | getNonce fetch =>
      cases hg : GetNonce fetch nm with
      | none =>
          simp only [applyOp, hg]
          exact ⟨hp, hrc, c, hc, hlt⟩
      | some r =>
          obtain ⟨v, nm2⟩ := r
          simp only [applyOp, hg]
          rcases getNonce_cases hg with
            ⟨hv, hpe, hre, hno⟩ | ⟨hv, hpe, hre, hno⟩ | ⟨hv, -, hpe, hre, hno⟩
          · have hne : n ≠ v := fun heq => hrc (heq ▸ hv)
            refine ⟨?_, fun hmem => hrc (hre n hmem), c, hno ▸ hc, hlt⟩
            rw [hpe, mem_pendingInsert]
            rintro (rfl | hmem)
            · exact hne rfl
            · exact hp hmem
          · rw [hc] at hv
            obtain rfl : c = v := by simpa using hv
            refine ⟨?_, hre ▸ hrc, c + 1, hno, by omega⟩
            rw [hpe, mem_pendingInsert]
            rintro (rfl | hmem)
            · omega
            · exact hp hmem
          · rw [hc] at hv
            exact Option.noConfusion hv
  | markFailed m =>
      have hok2 : m ∈ nm.pendingTxs := hok
      have hne : n ≠ m := fun heq => hp (heq ▸ hok2)
      refine ⟨?_, ?_, c, hc, hlt⟩
      · intro hmem
        exact hp (mem_pendingDelete.mp hmem).1
      · show n ∉ nm.reclaimable ++ [m]
        rw [List.mem_append]
        rintro (hmem | hmem)
        · exact hrc hmem
        · rw [List.mem_singleton] at hmem
          exact hne hmem
  | markConfirmed m =>
      refine ⟨?_, hrc, c, hc, hlt⟩
      intro hmem
      exact hp (mem_pendingDelete.mp hmem).1

theorem retired_runOps {n : Nat} (ops : List NonceOp) :
    ∀ nm, Retired n nm → wfFailed nm ops = true → Retired n (runOps nm ops) := by
  induction ops with
  | nil => exact fun nm h _ => h
  | cons op rest ih =>
      intro nm hr hwf
      obtain ⟨hok, hwf2⟩ := wfFailed_cons hwf
      exact ih _ (retired_applyOp hr hok) hwf2

/-- Counterexample to claim C7 as stated: GetNonce (fetch 5) returns 5,
MarkFailed(5) moves it to the reclaimable pool, and the later MarkConfirmed(5)
leaves the pool untouched, so after MarkConfirmed(5) has been called the
value 5 sits in the reclaimable pool. -/
theorem confirmed_nonce_reclaimable_counterexample :
    5 ∈ (runOps NewNonceManager
          [.getNonce (some 5), .markFailed 5, .markConfirmed 5]).reclaimable := by
  decide

/-- Claim C7 (amended): along every trace in which MarkFailed is only applied
to pending nonces, once MarkConfirmed(n) is called at a moment when n is
pending, the value n never appears in the reclaimable pool afterwards. -/
theorem confirmed_nonce_permanently_retired (ops1 p q : List NonceOp) (n : Nat)
    (hwf : wfFailed NewNonceManager (ops1 ++ .markConfirmed n :: (p ++ q)) = true)
    (hpend : n ∈ (runOps NewNonceManager ops1).pendingTxs) :
    n ∉ (runOps NewNonceManager (ops1 ++ .markConfirmed n :: p)).reclaimable := by
  have hsplit : (wfFailed NewNonceManager ops1 &&
      wfFailed (runOps NewNonceManager ops1)
        (.markConfirmed n :: (p ++ q))) = true := by
    rw [← wfFailed_append]
    exact hwf
  rw [Bool.and_eq_true] at hsplit
  obtain ⟨hwf1, hwfrest⟩ := hsplit
  obtain ⟨-, hwfpq⟩ := wfFailed_cons hwfrest
  have hwfp : wfFailed (applyOp (runOps NewNonceManager ops1) (.markConfirmed n))
      (p ++ q) = true := hwfpq
  rw [wfFailed_append, Bool.and_eq_true] at hwfp
  have hinvA : Inv (runOps NewNonceManager ops1) :=
    inv_runOps ops1 NewNonceManager inv_init hwf1
  obtain ⟨-, -, hdisj, hnone, hsome⟩ := hinvA
  have hretired : Retired n (applyOp (runOps NewNonceManager ops1)
      (.markConfirmed n)) := by
    refine ⟨?_, ?_, ?_⟩
    · intro hmem
      exact (mem_pendingDelete.mp hmem).2 rfl
    · intro hmem
      exact hdisj n hmem hpend
    · cases hno : (runOps NewNonceManager ops1).nonce with
      | none =>
          rw [(hnone hno).1] at hpend
          exact absurd hpend (List.not_mem_nil n)
      | some c =>
          exact ⟨c, hno, (hsome c hno).1 n hpend⟩
  have hfinal := retired_runOps p _ hretired hwfp.1
  rw [runOps_append]
  exact hfinal.2.1

/-- Witness for the amended C7 at a concrete trace. -/
theorem confirmed_nonce_permanently_retired_witness :
    5 ∉ (runOps NewNonceManager
          [.getNonce (some 5), .markConfirmed 5, .getNonce none]).reclaimable :=
  confirmed_nonce_permanently_retired [.getNonce (some 5)] [.getNonce none] [] 5
    (by decide) (by decide)

/-! ## C1: the live-allocation invariant -/

theorem contains_eq_false_of_not_mem {l : List Nat} {x : Nat} (h : x ∉ l) :
    l.contains x = false := by
  simpa using h

/-- Coupled invariant of the instrumented trace: the manager invariant holds,
the live multiset has exactly the members of the pending set, it is
duplicate-free, and no GetNonce so far returned an already-pending value. -/
def LiveInv (t : TraceState) : Prop :=
  Inv t.nm ∧ (∀ x, x ∈ t.live ↔ x ∈ t.nm.pendingTxs) ∧
  t.live.Nodup ∧ t.i2ok = true

theorem liveInv_init : LiveInv initTrace :=
  ⟨inv_init, fun x => by simp [initTrace, NewNonceManager], List.nodup_nil, rfl⟩

theorem traceStep_nm (t : TraceState) (op : NonceOp) :
    (traceStep t op).nm = applyOp t.nm op := by
  cases op with
  | getNonce fetch =>
      cases hg : GetNonce fetch t.nm with
      | none => simp [traceStep, applyOp, hg]
      | some r =>
          obtain ⟨v, nm2⟩ := r
          simp [traceStep, applyOp, hg]
  | markFailed n => rfl
  | markConfirmed n => rfl

theorem liveInv_step {t : TraceState} {op : NonceOp}
    (h : LiveInv t) (hok : opOk t.nm op) : LiveInv (traceStep t op) := by
  obtain ⟨hinv, hmem, hnd, hi2⟩ := h
  cases op with
  | getNonce fetch =>
      cases hg : GetNonce fetch t.nm with
      | none =>
          refine ⟨?_, ?_, ?_, ?_⟩ <;> simp [traceStep, hg, hinv, hmem, hnd, hi2]
      | some r =>
          obtain ⟨v, nm2⟩ := r
          have hfresh : v ∉ t.nm.pendingTxs := getNonce_fresh hinv hg
          have hpend2 : nm2.pendingTxs = pendingInsert t.nm.pendingTxs v :=
            getNonce_pending_eq hg
          refine ⟨?_, ?_, ?_, ?_⟩
          · simpa [traceStep, hg] using inv_getNonce_some hinv hg
          · intro x
            simp only [traceStep, hg]
            rw [hpend2, mem_pendingInsert, List.mem_append, List.mem_singleton,
              hmem x]
            tauto
          · simp only [traceStep, hg]
            rw [List.nodup_append]
            refine ⟨hnd, List.nodup_singleton v, ?_⟩
            intro x hx
            simp only [List.mem_singleton]
            rintro rfl
            exact hfresh ((hmem x).mp hx)
          · simp only [traceStep, hg]
            rw [hi2, contains_eq_false_of_not_mem hfresh]
            rfl
  | markFailed n =>
      refine ⟨inv_markFailed hinv hok, ?_, hnd.filter _, hi2⟩
      intro x
      show x ∈ t.live.filter (fun x => x != n) ↔ x ∈ pendingDelete t.nm.pendingTxs n
      rw [List.mem_filter, mem_pendingDelete, hmem x]
      simp
  | markConfirmed n =>
      refine ⟨inv_markConfirmed n hinv, ?_, hnd.filter _, hi2⟩
      intro x
      show x ∈ t.live.filter (fun x => x != n) ↔ x ∈ pendingDelete t.nm.pendingTxs n
      rw [List.mem_filter, mem_pendingDelete, hmem x]
      simp

theorem liveInv_run (ops : List NonceOp) :
    ∀ t, LiveInv t → wfFailed t.nm ops = true → LiveInv (traceRun t ops) := by
  induction ops with
  | nil => exact fun t h _ => h
  | cons op rest ih =>
      intro t h hwf
      obtain ⟨hok, hwf2⟩ := wfFailed_cons hwf
      refine ih _ (liveInv_step h hok) ?_
      rw [traceStep_nm]
      exact hwf2

/-- Claim C1 (amended): along every trace in which MarkFailed is only applied
to pending nonces, no two live allocations carry the same value, and every
GetNonce returns a value that was not already in the pending set. -/
theorem live_nonces_distinct (ops : List NonceOp)
    (hwf : wfFailed NewNonceManager ops = true) :
    (traceRun initTrace ops).live.Nodup ∧
    (traceRun initTrace ops).i2ok = true := by
  have h := liveInv_run ops initTrace liveInv_init hwf
  exact ⟨h.2.2.1, h.2.2.2⟩

/-- Witness for the amended C1 at a concrete trace. -/
theorem live_nonces_distinct_witness :
    (traceRun initTrace
      [.getNonce (some 3), .markFailed 3, .getNonce none]).live.Nodup ∧
    (traceRun initTrace
      [.getNonce (some 3), .markFailed 3, .getNonce none]).i2ok = true :=
  live_nonces_distinct [.getNonce (some 3), .markFailed 3, .getNonce none]
    (by decide)

/-! ## C6: backoff bounds -/

theorem secureRandomInt64n_bounds (entropy : Option Nat) (n : Int) (hn : 0 < n) :
    0 ≤ secureRandomInt64n entropy n ∧ secureRandomInt64n entropy n < n := by
  cases entropy with
  | none =>
      simp only [secureRandomInt64n]
      rw [if_neg (by omega)]
      omega
  | some r =>
      simp only [secureRandomInt64n]
      rw [if_neg (by omega)]
      have h1 : r % n.toNat < n.toNat := Nat.mod_lt _ (by omega)
      omega

/-- Claim C6: for every draw from the random source, CalculateBackoff equals
base/2 plus a jitter in [0, base/2], where base is the capped exponential
backoff min(initial * multiplier ^ attempt, max); in particular
CalculateBackoff(0, 1s, 30s, 2.0) lies in [0.5s, 1s] and
CalculateBackoff(10, 1s, 30s, 2.0) lies in [15s, 30s]. -/
theorem calculateBackoff_bounds :
    (∀ (attempt : Nat) (initial maxB : Int) (mult : ℚ) (entropy : Option Nat),
      0 ≤ initial → 0 ≤ maxB → 0 ≤ mult →
      ∃ j : Int, 0 ≤ j ∧ j ≤ min ⌊(initial : ℚ) * mult ^ attempt⌋ maxB / 2 ∧
        CalculateBackoff attempt initial maxB mult entropy =
          min ⌊(initial : ℚ) * mult ^ attempt⌋ maxB / 2 + j) ∧
    (∀ entropy, 500000000 ≤ CalculateBackoff 0 1000000000 30000000000 2 entropy ∧
        CalculateBackoff 0 1000000000 30000000000 2 entropy ≤ 1000000000) ∧
    (∀ entropy, 15000000000 ≤ CalculateBackoff 10 1000000000 30000000000 2 entropy ∧
        CalculateBackoff 10 1000000000 30000000000 2 entropy ≤ 30000000000) := by
  have hgen : ∀ (attempt : Nat) (initial maxB : Int) (mult : ℚ) (entropy : Option Nat),
      0 ≤ initial → 0 ≤ maxB → 0 ≤ mult →
      ∃ j : Int, 0 ≤ j ∧ j ≤ min ⌊(initial : ℚ) * mult ^ attempt⌋ maxB / 2 ∧
        CalculateBackoff attempt initial maxB mult entropy =
          min ⌊(initial : ℚ) * mult ^ attempt⌋ maxB / 2 + j := by
    intro attempt initial maxB mult entropy h1 h2 h3
    have hprod : (0 : ℚ) ≤ (initial : ℚ) * mult ^ attempt :=
      mul_nonneg (by exact_mod_cast h1) (pow_nonneg h3 _)
    have hB0 : (0 : Int) ≤ ⌊(initial : ℚ) * mult ^ attempt⌋ :=
      Int.floor_nonneg.mpr hprod
    set B := ⌊(initial : ℚ) * mult ^ attempt⌋ with hBdef
    have htrunc : ratTrunc ((initial : ℚ) * mult ^ attempt) = B := by
      unfold ratTrunc
      rw [if_neg (not_lt.mpr hprod)]
    have hcap : (if B > maxB then maxB else B) = min B maxB := by
      split <;> omega
    have hmin0 : 0 ≤ min B maxB := by omega
    have htd : Int.tdiv (min B maxB) 2 = min B maxB / 2 :=
      Int.tdiv_eq_ediv hmin0 (by norm_num)
    have hrand := secureRandomInt64n_bounds entropy (min B maxB / 2 + 1) (by omega)
    refine ⟨secureRandomInt64n entropy (min B maxB / 2 + 1), hrand.1, by omega, ?_⟩
    simp only [CalculateBackoff]
    rw [htrunc, hcap, htd]
  refine ⟨hgen, ?_, ?_⟩
  · intro entropy
    obtain ⟨j, hj0, hjle, heq⟩ := hgen 0 1000000000 30000000000 2 entropy
      (by norm_num) (by norm_num) (by norm_num)
    have hfl : ⌊((1000000000 : Int) : ℚ) * (2 : ℚ) ^ 0⌋ = 1000000000 := by norm_num
    rw [hfl] at heq hjle
    rw [heq]
    constructor <;> omega
  · intro entropy
    obtain ⟨j, hj0, hjle, heq⟩ := hgen 10 1000000000 30000000000 2 entropy
      (by norm_num) (by norm_num) (by norm_num)
    have hfl : ⌊((1000000000 : Int) : ℚ) * (2 : ℚ) ^ 10⌋ = 1024000000000 := by
      norm_num
    rw [hfl] at heq hjle
    rw [heq]
    constructor <;> omega

/-- Witness for C6: the decomposition instantiated at attempt 0 with a
concrete entropy draw. -/
theorem calculateBackoff_bounds_witness :
    ∃ j : Int, 0 ≤ j ∧
      j ≤ min ⌊((1000000000 : Int) : ℚ) * (2 : ℚ) ^ (0 : Nat)⌋ 30000000000 / 2 ∧
      CalculateBackoff 0 1000000000 30000000000 2 (some 7) =
        min ⌊((1000000000 : Int) : ℚ) * (2 : ℚ) ^ (0 : Nat)⌋ 30000000000 / 2 + j :=
  calculateBackoff_bounds.1 0 1000000000 30000000000 2 (some 7)
    (by decide) (by decide) (by decide)

/-! ## C5: retry-loop lemmas -/

theorem sendAttempts_unfold (env : SendEnv) (cfg : RetryConfig)
    (a : Nat) (b : ℚ) (le : Option String) (s : Nat) :
    sendAttempts env cfg a b le s =
      if a > cfg.maxRetries then (.maxRetriesExceeded le, s)
      else if a > 0 && env.cancelled a then (.ctxDone, s)
      else
        match env.send a with
        | .success hash => (.ok hash, s + 1)
        | .failure e =>
            if IsRetryableError (some e) then
              sendAttempts env cfg (a + 1) (stepBackoff cfg a b) (some e) (s + 1)
            else (.nonRetryable e, s + 1) := by
  conv_lhs => unfold sendAttempts
  rw [dite_eq_ite]

theorem cancel_cond_false {env : SendEnv} {a : Nat}
    (hnc : a = 0 ∨ env.cancelled a = false) :
    ¬ ((decide (a > 0) && env.cancelled a) = true) := by
  rcases hnc with rfl | hnc
  · simp
  · simp [hnc]

theorem sendAttempts_stop {env : SendEnv} {cfg : RetryConfig} {a : Nat}
    (h : a > cfg.maxRetries) (b : ℚ) (le : Option String) (s : Nat) :
    sendAttempts env cfg a b le s = (.maxRetriesExceeded le, s) := by
  rw [sendAttempts_unfold, if_pos h]

theorem sendAttempts_cancel {env : SendEnv} {cfg : RetryConfig} {a : Nat}
    (ha : ¬ a > cfg.maxRetries) (h0 : 0 < a) (hc : env.cancelled a = true)
    (b : ℚ) (le : Option String) (s : Nat) :
    sendAttempts env cfg a b le s = (.ctxDone, s) := by
  rw [sendAttempts_unfold, if_neg ha, if_pos (by simp [hc, h0])]

theorem sendAttempts_success {env : SendEnv} {cfg : RetryConfig} {a : Nat}
    {h : Nat} (ha : ¬ a > cfg.maxRetries)
    (hnc : a = 0 ∨ env.cancelled a = false) (hs : env.send a = .success h)
    (b : ℚ) (le : Option String) (s : Nat) :
    sendAttempts env cfg a b le s = (.ok h, s + 1) := by
  rw [sendAttempts_unfold, if_neg ha,
    if_neg (cancel_cond_false hnc), hs]

theorem sendAttempts_fail_retry {env : SendEnv} {cfg : RetryConfig} {a : Nat}
    {e : String} (ha : ¬ a > cfg.maxRetries)
    (hnc : a = 0 ∨ env.cancelled a = false) (hs : env.send a = .failure e)
    (hr : IsRetryableError (some e) = true) (b : ℚ) (le : Option String) (s : Nat) :
    sendAttempts env cfg a b le s =
      sendAttempts env cfg (a + 1) (stepBackoff cfg a b) (some e) (s + 1) := by
  rw [sendAttempts_unfold, if_neg ha,
    if_neg (cancel_cond_false hnc), hs]
  simp only [hr, if_true]

theorem sendAttempts_fail_abort {env : SendEnv} {cfg : RetryConfig} {a : Nat}
    {e : String} (ha : ¬ a > cfg.maxRetries)
    (hnc : a = 0 ∨ env.cancelled a = false) (hs : env.send a = .failure e)
    (hr : IsRetryableError (some e) = false) (b : ℚ) (le : Option String) (s : Nat) :
    sendAttempts env cfg a b le s = (.nonRetryable e, s + 1) := by
  rw [sendAttempts_unfold, if_neg ha,
    if_neg (cancel_cond_false hnc), hs]
  simp only [hr, Bool.false_eq_true, if_false]

/-- Running the loop across k consecutive retryable failures with no
cancellation advances the attempt counter, the send count, and the last
error. -/
theorem sendAttempts_advance (env : SendEnv) (cfg : RetryConfig)
    (errOf : Nat → String) (k : Nat) :
    ∀ a b le s, a + k ≤ cfg.maxRetries + 1 →
      (∀ j, a ≤ j → j < a + k → env.send j = .failure (errOf j) ∧
        IsRetryableError (some (errOf j)) = true) →
      (∀ j, 1 ≤ j → a ≤ j → j < a + k → env.cancelled j = false) →
      ∃ b2, sendAttempts env cfg a b le s =
        sendAttempts env cfg (a + k) b2
          (if k = 0 then le else some (errOf (a + k - 1))) (s + k) := by
  induction k with
  | zero =>
      intro a b le s _ _ _
      exact ⟨b, by simp⟩
  | succ k ih =>
      intro a b le s hbound herr hcan
      have hstep := sendAttempts_fail_retry
        (show ¬ a > cfg.maxRetries by omega)
        (by
          rcases Nat.eq_zero_or_pos a with h0 | h0
          · exact Or.inl h0
          · exact Or.inr (hcan a h0 (le_refl a) (by omega)))
        (herr a (le_refl a) (by omega)).1
        (herr a (le_refl a) (by omega)).2 b le s
      obtain ⟨b2, hrest⟩ := ih (a + 1) (stepBackoff cfg a b) (some (errOf a)) (s + 1)
        (by omega)
        (fun j hj1 hj2 => herr j (by omega) (by omega))
        (fun j hj1 hj2 hj3 => hcan j hj1 (by omega) (by omega))
      refine ⟨b2, ?_⟩
      rw [hstep, hrest]
      have h1 : a + 1 + k = a + (k + 1) := by omega
      have h2 : s + 1 + k = s + (k + 1) := by omega
      rw [h1, h2]
      congr 1
      rcases Nat.eq_zero_or_pos k with rfl | hk
      · simp
      · rw [if_neg (by omega), if_neg (by omega)]

/-- The send count of a full loop run is bounded by the remaining attempts. -/
theorem sendAttempts_count (env : SendEnv) (cfg : RetryConfig) :
    ∀ (n a : Nat) (b : ℚ) (le : Option String) (s : Nat),
      cfg.maxRetries + 1 - a ≤ n →
      (sendAttempts env cfg a b le s).2 ≤ s + (cfg.maxRetries + 1 - a) := by
  intro n
  induction n with
  | zero =>
      intro a b le s hn
      rw [sendAttempts_stop (by omega)]
      simp
  | succ n ih =>
      intro a b le s hn
      by_cases ha : a > cfg.maxRetries
      · rw [sendAttempts_stop ha]
        simp
      · by_cases hc : 0 < a ∧ env.cancelled a = true
        · rw [sendAttempts_cancel ha hc.1 hc.2]
          simp
        · have hnc : a = 0 ∨ env.cancelled a = false := by
            rcases Nat.eq_zero_or_pos a with h0 | h0
            · exact Or.inl h0
            · right
              rcases Bool.eq_false_or_eq_true (env.cancelled a) with hb | hb
              · exact absurd ⟨h0, hb⟩ hc
              · exact hb
          cases hsend : env.send a with
          | success h =>
              rw [sendAttempts_success ha hnc hsend]
              show s + 1 ≤ s + (cfg.maxRetries + 1 - a)
              omega
          | failure e =>
              cases hr : IsRetryableError (some e) with
              | true =>
                  rw [sendAttempts_fail_retry ha hnc hsend hr]
                  have := ih (a + 1) (stepBackoff cfg a b) (some e) (s + 1) (by omega)
                  omega
              | false =>
                  rw [sendAttempts_fail_abort ha hnc hsend hr]
                  show s + 1 ≤ s + (cfg.maxRetries + 1 - a)
                  omega

/-- Claim C5: SendTransactionWithRetry performs at most maxRetries + 1 send
calls; when an attempt fails with a classified non-retryable error (all
earlier attempts having failed retryably, no cancellation), it returns at
once with that error wrapped as non-retryable; when every attempt fails
retryably it returns the last error wrapped as max retries exceeded; and when
the cancellation signal fires during a backoff wait it returns the
cancellation error at once. -/
theorem sendTransactionWithRetry_contract :
    (∀ env cfg, (SendTransactionWithRetry env cfg).2 ≤ cfg.maxRetries + 1) ∧
    (∀ (env : SendEnv) (cfg : RetryConfig) (errOf : Nat → String) (k : Nat)
        (e : String),
      k ≤ cfg.maxRetries →
      (∀ j, j < k → env.send j = .failure (errOf j) ∧
        IsRetryableError (some (errOf j)) = true) →
      (∀ j, 1 ≤ j → j ≤ k → env.cancelled j = false) →
      env.send k = .failure e → IsRetryableError (some e) = false →
      SendTransactionWithRetry env cfg = (.nonRetryable e, k + 1)) ∧
    (∀ (env : SendEnv) (cfg : RetryConfig) (errOf : Nat → String),
      (∀ j, j ≤ cfg.maxRetries → env.send j = .failure (errOf j) ∧
        IsRetryableError (some (errOf j)) = true) →
      (∀ j, 1 ≤ j → j ≤ cfg.maxRetries → env.cancelled j = false) →
      SendTransactionWithRetry env cfg =
        (.maxRetriesExceeded (some (errOf cfg.maxRetries)), cfg.maxRetries + 1)) ∧
    (∀ (env : SendEnv) (cfg : RetryConfig) (errOf : Nat → String) (k : Nat),
      1 ≤ k → k ≤ cfg.maxRetries →
      (∀ j, j < k → env.send j = .failure (errOf j) ∧
        IsRetryableError (some (errOf j)) = true) →
      (∀ j, 1 ≤ j → j < k → env.cancelled j = false) →
      env.cancelled k = true →
      SendTransactionWithRetry env cfg = (.ctxDone, k)) := by
  refine ⟨?_, ?_, ?_, ?_⟩
  · intro env cfg
    have h := sendAttempts_count env cfg (cfg.maxRetries + 1) 0
      (cfg.initialBackoff : ℚ) none 0 (by omega)
    show (sendAttempts env cfg 0 (cfg.initialBackoff : ℚ) none 0).2 ≤
      cfg.maxRetries + 1
    omega
  · intro env cfg errOf k e hk herr hcan hke hnr
    obtain ⟨b2, hadv⟩ := sendAttempts_advance env cfg errOf k 0
      (cfg.initialBackoff : ℚ) none 0 (by omega)
      (fun j hj1 hj2 => herr j (by omega))
      (fun j hj1 hj2 hj3 => hcan j hj1 (by omega))
    simp only [Nat.zero_add] at hadv
    show sendAttempts env cfg 0 (cfg.initialBackoff : ℚ) none 0 = _
    rw [hadv]
    refine sendAttempts_fail_abort (by omega) ?_ hke hnr _ _ _
    rcases Nat.eq_zero_or_pos k with rfl | h0
    · exact Or.inl rfl
    · exact Or.inr (hcan k h0 (le_refl k))
  · intro env cfg errOf herr hcan
    obtain ⟨b2, hadv⟩ := sendAttempts_advance env cfg errOf (cfg.maxRetries + 1) 0
      (cfg.initialBackoff : ℚ) none 0 (by omega)
      (fun j hj1 hj2 => herr j (by omega))
      (fun j hj1 hj2 hj3 => hcan j hj1 (by omega))
    simp only [Nat.zero_add] at hadv
    show sendAttempts env cfg 0 (cfg.initialBackoff : ℚ) none 0 = _
    have h3 : cfg.maxRetries + 1 - 1 = cfg.maxRetries := by omega
    rw [hadv, if_neg (by omega), h3, sendAttempts_stop (by omega)]
  · intro env cfg errOf k h1 h2 herr hcan hck
    obtain ⟨b2, hadv⟩ := sendAttempts_advance env cfg errOf k 0
      (cfg.initialBackoff : ℚ) none 0 (by omega)
      (fun j hj1 hj2 => herr j (by omega))
      (fun j hj1 hj2 hj3 => hcan j hj1 (by omega))
    simp only [Nat.zero_add] at hadv
    show sendAttempts env cfg 0 (cfg.initialBackoff : ℚ) none 0 = _
    rw [hadv]
    exact sendAttempts_cancel (by omega) h1 hck _ _ _

/-- Witness for C5: four consecutive retryable failures under the default
configuration exhaust the retries and surface the last error. -/
theorem sendTransactionWithRetry_contract_witness :
    SendTransactionWithRetry
      ⟨fun _ => .failure "connection refused", fun _ => false⟩
      DefaultRetryConfig =
      (.maxRetriesExceeded (some "connection refused"), 4) := by
  have hr : IsRetryableError (some "connection refused") = true := by decide
  have h := sendTransactionWithRetry_contract.2.2.1
    ⟨fun _ => .failure "connection refused", fun _ => false⟩
    DefaultRetryConfig (fun _ => "connection refused")
    (fun j hj => ⟨rfl, hr⟩)
    (fun j hj1 hj2 => rfl)
  exact h

/-! ## C9: configuration validation -/

/-- Counterexample to claim C9 as stated: with a signer present and a
matching chain id available, NewManagerWithConfig with GasBufferPercent 150
does return the validation error, but only after the ChainID RPC was
performed: the network-call count of the run is 1, not 0. -/
theorem gasBuffer_validation_counterexample :
    NewManagerWithConfig ⟨true, some 314159, some 314159, some 1, true⟩
        (some ⟨150, none⟩) = (.error .gasBufferInvalid, 1) ∧
    (NewManagerWithConfig ⟨true, some 314159, some 314159, some 1, true⟩
        (some ⟨150, none⟩)).2 ≠ 0 := by
  constructor
  · decide
  · decide

/-- Claim C9 (amended): a gasBufferPercent outside [0, 100] always fails with
a validation error: EstimateGasWithBuffer rejects it before performing any
network call, and NewManagerWithConfig rejects it on every run that reaches
the validation (signer present, network known, chain id fetched and
matching), the chain-id fetch being the only network call performed before
the rejection. -/
theorem gasBuffer_validation :
    (∀ (p : Int) (est : Option Nat), (p < 0 ∨ p > 100) →
      EstimateGasWithBuffer est p =
        (.error "buffer percent must be between 0 and 100", 0)) ∧
    (∀ (cid : Int) (va : Option Nat) (cok : Bool) (cfg : ManagerConfig),
      (cfg.gasBufferPercent < 0 ∨ cfg.gasBufferPercent > 100) →
      NewManagerWithConfig ⟨true, some cid, some cid, va, cok⟩ (some cfg) =
        (.error .gasBufferInvalid, 1)) := by
  constructor
  · intro p est hout
    unfold EstimateGasWithBuffer
    rw [if_pos hout]
  · intro cid va cok cfg hout
    rcases hout with h | h <;> simp [NewManagerWithConfig, h]

/-- Witness for the amended C9 at concrete inputs. -/
theorem gasBuffer_validation_witness :
    EstimateGasWithBuffer (some 21000) 101 =
      (.error "buffer percent must be between 0 and 100", 0) ∧
    NewManagerWithConfig ⟨true, some 314159, some 314159, some 9, true⟩
        (some ⟨101, none⟩) = (.error .gasBufferInvalid, 1) :=
  ⟨gasBuffer_validation.1 101 (some 21000) (by decide),
   gasBuffer_validation.2 314159 (some 9) true ⟨101, none⟩ (by decide)⟩

end Synapse
